import Mathlib

/-!
# Verification of the propstreet/reviewer diff position mapper and prompt packer

This file is a shallow embedding, in Lean 4, of the core logic of the
`propstreet/reviewer` pull-request review action:

* the dual-side unified-diff position mapper `findPositionInDiff`
  (src/diffparser.ts, dual-side variant),
* the legacy single-side mapper `findPositionInDiff` (src/diffparser.ts,
  legacy variant, no `side` parameter),
* the token-budgeted prompt packer `packCommit` and the packing loop of
  `buildPrompt` (src/reviewer.ts),
* the comment routing logic of `postReviewComments` (src/githubService.ts).

Modelling conventions:

* A JavaScript string is modelled as a Lean `String`; per-line scanning is
  done on `List Char` (the result of splitting the patch on `'\n'`, exactly
  as `patch.split("\n")` does in the source).
* JavaScript numbers are modelled as exact integers (`Int` for line
  counters and target lines, `Nat` for parsed hunk starts and positions).
  Float precision loss for astronomically large literals is out of scope.
* The external tokenizer `isWithinTokenLimit(text, limit)` is modelled by
  an abstract predicate `fits : String → Bool` giving the truthiness of
  its result on each text; the packer only branches on that truthiness.
* Asynchronous Octokit calls in `postReviewComments` are effects; the
  routing logic that decides which call receives which comment is pure and
  is what is embedded here.
-/

namespace Reviewer

/-- The `"LEFT" | "RIGHT"` side enumeration of the dual-side mapper
(src/diffparser.ts dual-side variant, src/schemas.ts `side` enum). -/
inductive Side where
  | LEFT : Side
  | RIGHT : Side
deriving DecidableEq, Repr

/-- JS `line.split("\n")` on a list of characters: split on `'\n'`,
keeping empty pieces (so the empty string yields `[[]]`). -/
def splitNl : List Char → List (List Char)
  | [] => [[]]
  | c :: r =>
    if c = '\n' then [] :: splitNl r
    else
      match splitNl r with
      | [] => [[c]]
      | h :: t => (c :: h) :: t

/-- `line.startsWith("@@ ")` from the source: the first three characters
are `'@'`, `'@'`, `' '`. -/
def isHunkPrefix : List Char → Bool
  | '@' :: '@' :: ' ' :: _ => true
  | _ => false

/-- First character of the line equals `c` (JS `line.startsWith(c)` for a
one-character prefix). -/
def startsChar (c : Char) : List Char → Bool
  | [] => false
  | x :: _ => x = c

/-- Numeric value of a digit string, as `parseInt(digits, 10)` computes it
(exact; double rounding for huge literals is out of scope). -/
def digitsVal (ds : List Char) : Nat :=
  ds.foldl (fun a c => a * 10 + (c.toNat - 48)) 0

/-- Take the maximal leading run of decimal digits (the greedy `\d+`);
fails if there is no leading digit. -/
def takeDigits (s : List Char) : Option (Nat × List Char) :=
  let ds := s.takeWhile (fun c => c.isDigit)
  if ds.isEmpty then none else some (digitsVal ds, s.drop ds.length)

/-- Strip an exact literal prefix (a literal piece of the regex). -/
def stripLit : List Char → List Char → Option (List Char)
  | [], s => some s
  | p :: ps, c :: cs => if c = p then stripLit ps cs else none
  | _ :: _, [] => none

/-- The optional `(?:,(\d+))?` group of the hunk-header regex: if the next
character is a comma it must be followed by at least one digit (which is
consumed greedily); otherwise nothing is consumed.  The with-comma and
without-comma alternatives are mutually exclusive here because every
continuation of the regex after this group starts with a space. -/
def skipCommaCount : List Char → Option (List Char)
  | ',' :: r => (takeDigits r).map (·.2)
  | s => some s

/-- Attempt to match `@@ -(\d+)(?:,(\d+))? \+(\d+)(?:,(\d+))? @@` at the
start of `s`, returning the captured `oldStart` and `newStart`. -/
def tryMatchAt (s : List Char) : Option (Nat × Nat) := do
  let s ← stripLit ['@', '@', ' ', '-'] s
  let (o, s) ← takeDigits s
  let s ← skipCommaCount s
  let s ← stripLit [' ', '+'] s
  let (n, s) ← takeDigits s
  let s ← skipCommaCount s
  let _ ← stripLit [' ', '@', '@'] s
  pure (o, n)

/-- JS `line.match(/@@ -(\d+)(?:,(\d+))? \+(\d+)(?:,(\d+))? @@/)`:
leftmost match anywhere in the line, returning `(oldStart, newStart)`.
The legacy variant's regex differs only in which groups capture, so its
success condition and the captured `newStart` are the same. -/
def parseHunkHeader : List Char → Option (Nat × Nat)
  | [] => none
  | s@(_ :: r) =>
    match tryMatchAt s with
    | some x => some x
    | none => parseHunkHeader r

/-- One step of line-kind counter advancement inside a hunk
(dual-side variant, src/diffparser.ts lines 74–84): a context line
advances both counters, a deletion only the old one, an addition only the
new one, anything else neither. -/
def advanceCounters (oldL newL : Int) (l : List Char) : Int × Int :=
  if startsChar ' ' l then (oldL + 1, newL + 1)
  else if startsChar '-' l then (oldL + 1, newL)
  else if startsChar '+' l then (oldL, newL + 1)
  else (oldL, newL)

/-- The scanning loop of the dual-side `findPositionInDiff`
(src/diffparser.ts, dual-side variant, lines 40–96).  State: the two line
counters, the index of the first valid hunk header (`none` while
`hasFoundFirstHunk` is false), and the current line index `i`. -/
def findPosAux (side : Side) (target : Int) :
    Int → Int → Option Nat → Nat → List (List Char) → Option Nat
  | _, _, _, _, [] => none
  | oldL, newL, fh, i, l :: ls =>
    if isHunkPrefix l then
      match parseHunkHeader l with
      | some (o, n) =>
        findPosAux side target ((o : Int) - 1) ((n : Int) - 1)
          (some (fh.getD i)) (i + 1) ls
      | none => findPosAux side target oldL newL fh (i + 1) ls
    else
      match fh with
      | none => findPosAux side target oldL newL none (i + 1) ls
      | some f =>
        let p := advanceCounters oldL newL l
        match side with
        | Side.LEFT =>
          if p.1 = target then some (i - f)
          else findPosAux side target p.1 p.2 (some f) (i + 1) ls
        | Side.RIGHT =>
          if p.2 = target then some (i - f)
          else findPosAux side target p.1 p.2 (some f) (i + 1) ls

/-- Dual-side `findPositionInDiff` on a pre-split list of lines. -/
def findPositionLines (lines : List (List Char)) (targetLine : Int)
    (side : Side) : Option Nat :=
  findPosAux side targetLine 0 0 none 0 lines

/-- `findPositionInDiff(patch, targetLine, side)` — the dual-side position
mapper (src/diffparser.ts, dual-side variant). -/
def findPositionInDiff (patch : String) (targetLine : Int) (side : Side) :
    Option Nat :=
  findPositionLines (splitNl patch.data) targetLine side

/-- The scanning loop of the legacy single-side `findPositionInDiff`
(src/diffparser.ts, legacy variant, lines 38–77): only the new-file
counter is tracked and the target check happens only on addition and
context lines. -/
def findPosLegacyAux (target : Int) :
    Int → Option Nat → Nat → List (List Char) → Option Nat
  | _, _, _, [] => none
  | newL, fh, i, l :: ls =>
    if isHunkPrefix l then
      match parseHunkHeader l with
      | some (_, n) =>
        findPosLegacyAux target ((n : Int) - 1) (some (fh.getD i)) (i + 1) ls
      | none => findPosLegacyAux target newL fh (i + 1) ls
    else
      match fh with
      | none => findPosLegacyAux target newL none (i + 1) ls
      | some f =>
        if startsChar '+' l || startsChar ' ' l then
          if newL + 1 = target then some (i - f)
          else findPosLegacyAux target (newL + 1) (some f) (i + 1) ls
        else findPosLegacyAux target newL (some f) (i + 1) ls

/-- `findPositionInDiff(patch, newFileLine)` — the legacy no-side position
mapper (src/diffparser.ts, legacy variant). -/
def findPositionInDiffLegacy (patch : String) (newFileLine : Int) :
    Option Nat :=
  findPosLegacyAux newFileLine 0 none 0 (splitNl patch.data)

/-- The chosen side's counter of a state `(oldL, newL)`. -/
def sideCounter (side : Side) (oldL newL : Int) : Int :=
  match side with
  | Side.LEFT => oldL
  | Side.RIGHT => newL

/-- Whether a physical line carries a line number on the chosen side:
context-or-deletion for `LEFT`, context-or-addition for `RIGHT`.  These
are exactly the lines on which the scan advances that side's counter. -/
def sideAdvances (side : Side) (l : List Char) : Bool :=
  match side with
  | Side.LEFT => startsChar ' ' l || startsChar '-' l
  | Side.RIGHT => startsChar ' ' l || startsChar '+' l

/-- Reference scan collecting the chosen side's numbering introduced by
the hunks of the patch: the counter values attained at context-or-deletion
lines (for `LEFT`) or context-or-addition lines (for `RIGHT`) after the
first valid hunk header.  This formalises the claim notion "line numbers
present in the chosen side's numbering within any hunk"; it shares the
counter bookkeeping of `findPosAux` but never returns early. -/
def sideNumbersAux (side : Side) :
    Int → Int → Bool → List (List Char) → List Int
  | _, _, _, [] => []
  | oldL, newL, found, l :: ls =>
    if isHunkPrefix l then
      match parseHunkHeader l with
      | some (o, n) =>
        sideNumbersAux side ((o : Int) - 1) ((n : Int) - 1) true ls
      | none => sideNumbersAux side oldL newL found ls
    else if found then
      let p := advanceCounters oldL newL l
      if sideAdvances side l then
        sideCounter side p.1 p.2 :: sideNumbersAux side p.1 p.2 true ls
      else sideNumbersAux side p.1 p.2 true ls
    else sideNumbersAux side oldL newL false ls

/-- The chosen side's numbering introduced by the hunks of a patch. -/
def sideNumbers (patch : String) (side : Side) : List Int :=
  sideNumbersAux side 0 0 false (splitNl patch.data)

/-- The values `sideStart - 1` to which a valid hunk header resets the
chosen side's counter, one per valid hunk header of the line list. -/
def preStartsLines (side : Side) : List (List Char) → List Int
  | [] => []
  | l :: ls =>
    if isHunkPrefix l then
      match parseHunkHeader l with
      | some (o, n) =>
        (sideCounter side ((o : Int) - 1) ((n : Int) - 1)) :: preStartsLines side ls
      | none => preStartsLines side ls
    else preStartsLines side ls

/-- The values `sideStart - 1` of the valid hunk headers of a patch. -/
def preStarts (patch : String) (side : Side) : List Int :=
  preStartsLines side (splitNl patch.data)

/-- Reference scan checking that no valid hunk header after the first
moves the chosen side's counter backwards (i.e. hunks appear in order and
do not overlap on that side), mirroring the state bookkeeping of
`findPosAux`. -/
def headersMonotoneAux (side : Side) :
    Int → Int → Bool → List (List Char) → Bool
  | _, _, _, [] => true
  | oldL, newL, found, l :: ls =>
    if isHunkPrefix l then
      match parseHunkHeader l with
      | some (o, n) =>
        (!found || decide (sideCounter side oldL newL ≤
            sideCounter side ((o : Int) - 1) ((n : Int) - 1))) &&
          headersMonotoneAux side ((o : Int) - 1) ((n : Int) - 1) true ls
      | none => headersMonotoneAux side oldL newL found ls
    else if found then
      let p := advanceCounters oldL newL l
      headersMonotoneAux side p.1 p.2 true ls
    else headersMonotoneAux side oldL newL false ls

/-- A patch has ordered, non-overlapping hunks on the chosen side. -/
def headersMonotone (patch : String) (side : Side) : Bool :=
  headersMonotoneAux side 0 0 false (splitNl patch.data)

/-! ## Prompt packer (src/reviewer.ts) -/

/-- `PatchInfo` from src/githubService.ts. -/
structure PatchInfo where
  filename : String
  patch : String
deriving DecidableEq, Repr

/-- `CommitDetails` from src/githubService.ts. -/
structure CommitDetails where
  sha : String
  message : String
  patches : List PatchInfo
deriving DecidableEq, Repr

/-- The per-patch block text built by `packCommit`
(src/reviewer.ts line 26). -/
def patchBlock (p : PatchInfo) : String :=
  "\n### FILE: " ++ p.filename ++ "\n\n```diff\n" ++ p.patch ++ "\n```\n"

/-- The initial commit block text built by `packCommit`
(src/reviewer.ts line 19). -/
def commitHeader (c : CommitDetails) : String :=
  "\n## COMMIT SHA: " ++ c.sha ++ "\n\n" ++ c.message ++ "\n"

/-- Result of the packing loop of `packCommit`. -/
structure PackResult where
  block : String
  usedPatches : List PatchInfo
  skippedPatches : List PatchInfo
deriving DecidableEq, Repr

/-- The patch loop of `packCommit` (src/reviewer.ts lines 23–41).
`fits text` is the truthiness of `isWithinTokenLimit(text, tokenLimit)`
for the fixed token limit; `block` is the commit block accumulated so
far. -/
def packCommitLoop (accumulated : String) (fits : String → Bool)
    (block : String) : List PatchInfo → PackResult
  | [] => ⟨block, [], []⟩
  | p :: ps =>
    if fits (accumulated ++ block ++ patchBlock p) then
      let r := packCommitLoop accumulated fits (block ++ patchBlock p) ps
      ⟨r.block, p :: r.usedPatches, r.skippedPatches⟩
    else
      let r := packCommitLoop accumulated fits block ps
      ⟨r.block, r.usedPatches, p :: r.skippedPatches⟩

/-- `packCommit(accumulated, commit, tokenLimit)` (src/reviewer.ts lines
12–57): packs the commit's patches greedily and reports failure (`none`)
when no patch fit. -/
def packCommit (accumulated : String) (fits : String → Bool)
    (commit : CommitDetails) : Option PackResult :=
  let r := packCommitLoop accumulated fits (commitHeader commit) commit.patches
  if r.usedPatches.isEmpty then none else some r

/-- `PackedCommit` from src/reviewer.ts. -/
structure PackedCommit where
  commit : CommitDetails
  patches : List PatchInfo
deriving DecidableEq, Repr

/-- The commit packing loop of `buildPrompt` (src/reviewer.ts lines
98–124): fold over the commits, appending each packed commit block to the
prompt; when `packCommit` reports failure the loop exits (`break`).
Returns the final prompt and the packed commits. -/
def buildPromptPack (fits : String → Bool) (prompt : String) :
    List CommitDetails → String × List PackedCommit
  | [] => (prompt, [])
  | c :: rest =>
    match packCommit prompt fits c with
    | none => (prompt, [])
    | some packed =>
      let r := buildPromptPack fits (prompt ++ packed.block) rest
      (r.1, ⟨c, packed.usedPatches⟩ :: r.2)

/-! ## Review poster routing (src/githubService.ts, dual-side variant) -/

/-- The severity enumeration of src/schemas.ts
(`z.enum(["info", "warning", "error"])`). -/
inductive Severity where
  | info : Severity
  | warning : Severity
  | error : Severity
deriving DecidableEq, Repr

/-- The string carried by each severity value. -/
def severityString : Severity → String
  | Severity.info => "info"
  | Severity.warning => "warning"
  | Severity.error => "error"

/-- `const severityOrder = ["info", "warning", "error"]`
(src/githubService.ts line 282): the fixed ordering as an explicit list,
not enum ordinals. -/
def severityOrder : List String := ["info", "warning", "error"]

/-- A `CodeReviewComment` of the dual-side schema (src/schemas.ts):
`{sha, file, line, side, comment, severity}`. -/
structure RComment where
  sha : String
  file : String
  line : Int
  side : Side
  comment : String
  severity : Severity
deriving DecidableEq, Repr

/-- `verifyCommentLineInPatch(filename, line, side, patches)`
(src/githubService.ts, dual-side variant, lines 237–251). -/
def verifyCommentLineInPatch (filename : String) (line : Int) (side : Side)
    (patches : List PatchInfo) : Bool :=
  match patches.find? (fun p => p.filename = filename) with
  | none => false
  | some target => (findPositionInDiff target.patch line side).isSome

/-- One per-commit comment group built by the `reduce` of
`postReviewComments` (src/githubService.ts lines 289–326). -/
structure Group where
  sha : String
  commit : PackedCommit
  comments : List RComment
deriving DecidableEq, Repr

/-- `acc.find(g => g.sha === c.sha)` then push, else push a new group at
the end (src/githubService.ts lines 308–317). -/
def addToGroup (c : RComment) (commit : PackedCommit) :
    List Group → List Group
  | [] => [⟨c.sha, commit, [c]⟩]
  | g :: gs =>
    if g.sha = c.sha then ⟨g.sha, g.commit, g.comments ++ [c]⟩ :: gs
    else g :: addToGroup c commit gs

/-- One step of the `reduce` of `postReviewComments`: route a comment to
its commit group, or to the issue-comment fallback list when its commit is
not packed or its line cannot be verified in the commit's patches. -/
def routeStep (commits : List PackedCommit)
    (st : List Group × List RComment) (c : RComment) :
    List Group × List RComment :=
  match commits.find? (fun d => d.commit.sha = c.sha) with
  | none => (st.1, st.2 ++ [c])
  | some commit =>
    if verifyCommentLineInPatch c.file c.line c.side commit.patches then
      (addToGroup c commit st.1, st.2)
    else (st.1, st.2 ++ [c])

/-- `groupChanges`: the comments of a group whose severity index meets or
exceeds the threshold index (src/githubService.ts lines 334–336). -/
def groupChanges (changesThreshold : Severity) (g : Group) : List RComment :=
  g.comments.filter (fun c =>
    severityOrder.indexOf (severityString changesThreshold) ≤
      severityOrder.indexOf (severityString c.severity))

/-- `groupComments`: the remaining comments of a group, built as in the
source with `!groupChanges.includes(c)` (src/githubService.ts lines
345–347). -/
def groupCommentsOnly (changesThreshold : Severity) (g : Group) :
    List RComment :=
  g.comments.filter (fun c => !((groupChanges changesThreshold g).contains c))

/-- The body of a fallback issue comment (src/githubService.ts line
362): `Comment on line ${line} (${side}) of file ${file}: ${comment}`. -/
def mkIssueBody (c : RComment) : String :=
  "Comment on line " ++ toString c.line ++ " (" ++
    (match c.side with | Side.LEFT => "LEFT" | Side.RIGHT => "RIGHT") ++
    ") of file " ++ c.file ++ ": " ++ c.comment

/-- The pure routing outcome of `postReviewComments`
(src/githubService.ts, dual-side variant, lines 276–371): the per-commit
groups, the fallback comments in encounter order, and the bodies of the
issue comments posted for them. -/
structure RouteResult where
  groups : List Group
  issueComments : List RComment
deriving Repr

/-- The issue comment bodies posted by the fallback loop
(src/githubService.ts lines 357–364). -/
def RouteResult.issueBodies (r : RouteResult) : List String :=
  r.issueComments.map mkIssueBody

/-- `postReviewComments(comments, changesThreshold, commits)` routing:
the grouping `reduce` over the comments.  The per-group
`REQUEST_CHANGES` and `COMMENT` partitions are `groupChanges` and
`groupCommentsOnly` of each returned group. -/
def postReviewComments (comments : List RComment)
    (commits : List PackedCommit) : RouteResult :=
  let st := comments.foldl (routeStep commits) ([], [])
  ⟨st.1, st.2⟩

/-! ## Helper lemmas about the position-mapper scan -/

/-- Unfolding `findPosAux` at a valid hunk header. -/
theorem findPosAux_cons_header (side : Side) (t oldL newL : Int)
    (fh : Option Nat) (i : Nat) (l : List Char) (ls : List (List Char))
    (o n : Nat) (h1 : isHunkPrefix l = true)
    (hp : parseHunkHeader l = some (o, n)) :
    findPosAux side t oldL newL fh i (l :: ls) =
      findPosAux side t ((o : Int) - 1) ((n : Int) - 1)
        (some (fh.getD i)) (i + 1) ls := by
  cases side <;> simp [findPosAux, h1, hp]

/-- Unfolding `findPosAux` at an `"@@ "` line whose text does not match
the hunk-header grammar. -/
theorem findPosAux_cons_badheader (side : Side) (t oldL newL : Int)
    (fh : Option Nat) (i : Nat) (l : List Char) (ls : List (List Char))
    (h1 : isHunkPrefix l = true) (hp : parseHunkHeader l = none) :
    findPosAux side t oldL newL fh i (l :: ls) =
      findPosAux side t oldL newL fh (i + 1) ls := by
  cases side <;> simp [findPosAux, h1, hp]

/-- Unfolding `findPosAux` at a pre-hunk content line. -/
theorem findPosAux_cons_prehunk (side : Side) (t oldL newL : Int)
    (i : Nat) (l : List Char) (ls : List (List Char))
    (h1 : isHunkPrefix l = false) :
    findPosAux side t oldL newL none i (l :: ls) =
      findPosAux side t oldL newL none (i + 1) ls := by
  cases side <;> simp [findPosAux, h1]

/-- Unfolding `findPosAux` at a content line after the first hunk header,
with the two side-specific target checks of the source fused into one
comparison of the chosen side's counter. -/
theorem findPosAux_cons_content (side : Side) (t oldL newL : Int)
    (f i : Nat) (l : List Char) (ls : List (List Char))
    (h1 : isHunkPrefix l = false) :
    findPosAux side t oldL newL (some f) i (l :: ls) =
      (if sideCounter side (advanceCounters oldL newL l).1
          (advanceCounters oldL newL l).2 = t then some (i - f)
        else findPosAux side t (advanceCounters oldL newL l).1
          (advanceCounters oldL newL l).2 (some f) (i + 1) ls) := by
  cases side <;> simp [findPosAux, h1, sideCounter]

/-- How one scanned line moves the chosen side's counter: by one exactly
on the lines carrying a number on that side, otherwise not at all. -/
theorem sideCounter_advance (side : Side) (oldL newL : Int) (l : List Char) :
    sideCounter side (advanceCounters oldL newL l).1
        (advanceCounters oldL newL l).2 =
      sideCounter side oldL newL + (if sideAdvances side l then 1 else 0) := by
  cases side <;>
    simp only [sideCounter, sideAdvances, advanceCounters, startsChar] <;>
    cases l with
    | nil => simp
    | cons c cs => by_cases h1 : c = ' ' <;> by_cases h2 : c = '-' <;>
        by_cases h3 : c = '+' <;> simp_all

/-- In the found state, shifting the line index and the recorded first
hunk index by the same amount does not change the result. -/
theorem findPosAux_shift (side : Side) (t : Int) (k : Nat)
    (ls : List (List Char)) :
    ∀ (oldL newL : Int) (f i : Nat),
      findPosAux side t oldL newL (some (f + k)) (i + k) ls =
        findPosAux side t oldL newL (some f) i ls := by
  induction ls with
  | nil => intro oldL newL f i; rfl
  | cons l ls ih =>
    intro oldL newL f i
    have hik : i + k + 1 = (i + 1) + k := by omega
    by_cases h1 : isHunkPrefix l
    · cases hp : parseHunkHeader l with
      | none =>
        rw [findPosAux_cons_badheader side t oldL newL _ _ l ls h1 hp,
          findPosAux_cons_badheader side t oldL newL _ _ l ls h1 hp,
          hik]
        exact ih oldL newL f (i + 1)
      | some pr =>
        obtain ⟨o, n⟩ := pr
        rw [findPosAux_cons_header side t oldL newL _ _ l ls o n h1 hp,
          findPosAux_cons_header side t oldL newL _ _ l ls o n h1 hp]
        simp only [Option.getD_some]
        rw [hik]
        exact ih _ _ f (i + 1)
    · have h1f : isHunkPrefix l = false := by simpa using h1
      rw [findPosAux_cons_content side t oldL newL _ _ l ls h1f,
        findPosAux_cons_content side t oldL newL _ _ l ls h1f]
      by_cases hc :
          sideCounter side (advanceCounters oldL newL l).1
            (advanceCounters oldL newL l).2 = t
      · simp only [hc, if_true]
        congr 1
        omega
      · simp only [hc, if_false]
        rw [hik]
        exact ih _ _ f (i + 1)

/-- Before the first valid hunk header is seen, the counters and the line
index are irrelevant to the result. -/
theorem findPosAux_none_irrel (side : Side) (t : Int)
    (ls : List (List Char)) :
    ∀ (a b a' b' : Int) (i i' : Nat),
      findPosAux side t a b none i ls = findPosAux side t a' b' none i' ls := by
  induction ls with
  | nil => intro a b a' b' i i'; rfl
  | cons l ls ih =>
    intro a b a' b' i i'
    by_cases h1 : isHunkPrefix l
    · cases hp : parseHunkHeader l with
      | none =>
        rw [findPosAux_cons_badheader side t a b _ _ l ls h1 hp,
          findPosAux_cons_badheader side t a' b' _ _ l ls h1 hp]
        exact ih a b a' b' (i + 1) (i' + 1)
      | some pr =>
        obtain ⟨o, n⟩ := pr
        rw [findPosAux_cons_header side t a b _ _ l ls o n h1 hp,
          findPosAux_cons_header side t a' b' _ _ l ls o n h1 hp]
        simp only [Option.getD_none]
        calc findPosAux side t ((o : Int) - 1) ((n : Int) - 1)
              (some i) (i + 1) ls
            = findPosAux side t ((o : Int) - 1) ((n : Int) - 1)
              (some 0) 1 ls := by
              have h := findPosAux_shift side t i ls ((o : Int) - 1)
                ((n : Int) - 1) 0 1
              simpa [Nat.add_comm] using h
          _ = findPosAux side t ((o : Int) - 1) ((n : Int) - 1)
              (some i') (i' + 1) ls := by
              have h := findPosAux_shift side t i' ls ((o : Int) - 1)
                ((n : Int) - 1) 0 1
              simpa [Nat.add_comm] using h.symm
    · have h1f : isHunkPrefix l = false := by simpa using h1
      rw [findPosAux_cons_prehunk side t a b _ l ls h1f,
        findPosAux_cons_prehunk side t a' b' _ l ls h1f]
      exact ih a b a' b' (i + 1) (i' + 1)

/-- A line is a counter-setting hunk header iff it starts with `"@@ "`
and its text matches the hunk-header grammar. -/
def isValidHunkHeader (l : List Char) : Bool :=
  isHunkPrefix l && (parseHunkHeader l).isSome

/-- Pre-hunk lines that are not valid hunk headers are skipped without any
effect on the scan. -/
theorem findPosAux_skip_junk (side : Side) (t : Int)
    (junk : List (List Char)) (ls : List (List Char))
    (hjunk : ∀ l ∈ junk, isValidHunkHeader l = false) :
    ∀ (a b a' b' : Int) (i i' : Nat),
      findPosAux side t a b none i (junk ++ ls) =
        findPosAux side t a' b' none i' ls := by
  induction junk with
  | nil =>
    intro a b a' b' i i'
    exact findPosAux_none_irrel side t ls a b a' b' i i'
  | cons l junk ih =>
    intro a b a' b' i i'
    have hl : isValidHunkHeader l = false := hjunk l (List.mem_cons_self l junk)
    have hjunk' : ∀ l' ∈ junk, isValidHunkHeader l' = false :=
      fun l' hl' => hjunk l' (List.mem_cons_of_mem l hl')
    rw [List.cons_append]
    by_cases h1 : isHunkPrefix l
    · have hp : parseHunkHeader l = none := by
        cases hp : parseHunkHeader l with
        | none => rfl
        | some x =>
          exfalso
          simp [isValidHunkHeader, h1, hp] at hl
      rw [findPosAux_cons_badheader side t a b _ _ l (junk ++ ls) h1 hp]
      exact ih hjunk' a b a' b' (i + 1) i'
    · have h1f : isHunkPrefix l = false := by simpa using h1
      rw [findPosAux_cons_prehunk side t a b _ l (junk ++ ls) h1f]
      exact ih hjunk' a b a' b' (i + 1) i'

/-- A line that carries a number on some side starts with `' '`, `'-'` or
`'+'`, hence is not an `"@@ "` line. -/
theorem sideAdvances_not_hunkPrefix (side : Side) (l : List Char)
    (h : sideAdvances side l = true) : isHunkPrefix l = false := by
  cases side <;> cases l with
  | nil => simp [sideAdvances, startsChar] at h
  | cons c cs =>
    simp only [sideAdvances, startsChar, Bool.or_eq_true, decide_eq_true_eq] at h
    rcases h with h | h <;> subst h <;> rfl

/-- Every position produced by the scan from line index `i` with recorded
first hunk index `f` is at least `i - f`. -/
theorem findPosAux_lb (side : Side) (t : Int) (ls : List (List Char)) :
    ∀ (oldL newL : Int) (f i : Nat) (p : Nat),
      findPosAux side t oldL newL (some f) i ls = some p → i - f ≤ p := by
  induction ls with
  | nil => intro oldL newL f i p h; simp [findPosAux] at h
  | cons l ls ih =>
    intro oldL newL f i p h
    by_cases h1 : isHunkPrefix l
    · cases hp : parseHunkHeader l with
      | none =>
        rw [findPosAux_cons_badheader side t oldL newL _ _ l ls h1 hp] at h
        have := ih oldL newL f (i + 1) p h
        omega
      | some pr =>
        obtain ⟨o, n⟩ := pr
        rw [findPosAux_cons_header side t oldL newL _ _ l ls o n h1 hp] at h
        simp only [Option.getD_some] at h
        have := ih _ _ f (i + 1) p h
        omega
    · have h1f : isHunkPrefix l = false := by simpa using h1
      rw [findPosAux_cons_content side t oldL newL _ _ l ls h1f] at h
      by_cases hc :
          sideCounter side (advanceCounters oldL newL l).1
            (advanceCounters oldL newL l).2 = t
      · simp only [hc, if_true, Option.some.injEq] at h
        omega
      · simp only [hc, if_false] at h
        have := ih _ _ f (i + 1) p h
        omega

/-- Every position produced by the scan is at least `1`, as long as the
recorded first hunk index (when present) lies strictly before the current
line index. -/
theorem findPosAux_ge_one (side : Side) (t : Int) (ls : List (List Char)) :
    ∀ (oldL newL : Int) (fh : Option Nat) (i : Nat) (p : Nat),
      (∀ f, fh = some f → f < i) →
      findPosAux side t oldL newL fh i ls = some p → 1 ≤ p := by
  induction ls with
  | nil => intro oldL newL fh i p _ h; simp [findPosAux] at h
  | cons l ls ih =>
    intro oldL newL fh i p hwf h
    by_cases h1 : isHunkPrefix l
    · cases hp : parseHunkHeader l with
      | none =>
        rw [findPosAux_cons_badheader side t oldL newL _ _ l ls h1 hp] at h
        exact ih oldL newL fh (i + 1) p
          (fun f hf => Nat.lt_succ_of_lt (hwf f hf)) h
      | some pr =>
        obtain ⟨o, n⟩ := pr
        rw [findPosAux_cons_header side t oldL newL _ _ l ls o n h1 hp] at h
        refine ih _ _ _ (i + 1) p ?_ h
        intro f hf
        cases fh with
        | none => simp at hf; omega
        | some f0 =>
          have := hwf f0 rfl
          simp at hf
          omega
    · have h1f : isHunkPrefix l = false := by simpa using h1
      cases fh with
      | none =>
        rw [findPosAux_cons_prehunk side t oldL newL _ l ls h1f] at h
        exact ih oldL newL none (i + 1) p (by simp) h
      | some f =>
        have hfi : f < i := hwf f rfl
        rw [findPosAux_cons_content side t oldL newL _ _ l ls h1f] at h
        by_cases hc :
            sideCounter side (advanceCounters oldL newL l).1
              (advanceCounters oldL newL l).2 = t
        · simp only [hc, if_true, Option.some.injEq] at h
          omega
        · simp only [hc, if_false] at h
          exact ih _ _ (some f) (i + 1) p (fun f' hf' => by
            simp at hf'; omega) h

/-- C10: For every patch string, target line number, and side, whenever
`findPositionInDiff` returns a non-null result, that result is an integer
greater than or equal to 1: a matched line always lies strictly after the
recorded first hunk header, so the returned offset is never zero. -/
theorem findPositionInDiff_pos (patch : String) (t : Int) (side : Side)
    (p : Nat) (h : findPositionInDiff patch t side = some p) : 1 ≤ p :=
  findPosAux_ge_one side t (splitNl patch.data) 0 0 none 0 p
    (fun f hf => by cases hf) h

/-- Witness for `findPositionInDiff_pos` at a concrete patch. -/
theorem findPositionInDiff_pos_witness :
    findPositionInDiff "@@ -1,2 +1,2 @@\n-removed\n some\n+added" 1
        Side.RIGHT = some 2 ∧ (1 : Nat) ≤ 2 :=
  ⟨by decide,
    findPositionInDiff_pos "@@ -1,2 +1,2 @@\n-removed\n some\n+added" 1
      Side.RIGHT 2 (by decide)⟩

/-- C5: in any patch whose first valid hunk header is immediately
followed by a line carrying a number on the chosen side (context or
addition for RIGHT, context or deletion for LEFT), querying the number
that this line carries — `newStart` resp. `oldStart` of that header —
returns position exactly 1; the pre-header lines and the header itself
are never assigned a position. -/
theorem firstContentLine_position_one (pre : List (List Char))
    (h c : List Char) (rest : List (List Char)) (o n : Nat) (side : Side)
    (t : Int) (hpre : ∀ l ∈ pre, isValidHunkHeader l = false)
    (hhdr : isHunkPrefix h = true) (hparse : parseHunkHeader h = some (o, n))
    (hadv : sideAdvances side c = true)
    (ht : t = sideCounter side (o : Int) (n : Int)) :
    findPositionLines (pre ++ h :: c :: rest) t side = some 1 := by
  unfold findPositionLines
  rw [findPosAux_skip_junk side t pre (h :: c :: rest) hpre 0 0 0 0 0 0]
  rw [findPosAux_cons_header side t 0 0 none 0 h (c :: rest) o n hhdr hparse]
  simp only [Option.getD_none]
  have hcnp : isHunkPrefix c = false := sideAdvances_not_hunkPrefix side c hadv
  rw [findPosAux_cons_content side t _ _ 0 1 c rest hcnp]
  have hstep := sideCounter_advance side ((o : Int) - 1) ((n : Int) - 1) c
  rw [hadv] at hstep
  have hcnt : sideCounter side ((o : Int) - 1) ((n : Int) - 1) =
      sideCounter side (o : Int) (n : Int) - 1 := by
    cases side <;> simp [sideCounter]
  rw [if_pos (by rw [hstep, hcnt, ht]; simp)]

/-- Witness for `firstContentLine_position_one`: the first content line
after the header of a concrete patch maps to position 1 on both sides. -/
theorem firstContentLine_position_one_witness :
    findPositionLines ["diff --git a/f b/f".data, "@@ -3,2 +7,2 @@".data,
        " ctx".data, "+add".data] 7 Side.RIGHT = some 1 ∧
      findPositionLines ["diff --git a/f b/f".data, "@@ -3,2 +7,2 @@".data,
        " ctx".data, "+add".data] 3 Side.LEFT = some 1 :=
  ⟨firstContentLine_position_one ["diff --git a/f b/f".data]
      "@@ -3,2 +7,2 @@".data " ctx".data ["+add".data] 3 7 Side.RIGHT 7
      (by decide) (by decide) (by decide) (by decide) (by decide),
    firstContentLine_position_one ["diff --git a/f b/f".data]
      "@@ -3,2 +7,2 @@".data " ctx".data ["+add".data] 3 7 Side.LEFT 3
      (by decide) (by decide) (by decide) (by decide) (by decide)⟩

/-- Splitting on newlines after a newline-free prefix and an explicit
newline peels off the prefix as the first line. -/
theorem splitNl_append_newline (a b : List Char) (ha : '\n' ∉ a) :
    splitNl (a ++ '\n' :: b) = a :: splitNl b := by
  induction a with
  | nil => simp [splitNl]
  | cons c r ih =>
    have hc : ¬c = '\n' := fun h => ha (h ▸ List.mem_cons_self c r)
    have hr : '\n' ∉ r := fun h => ha (List.mem_cons_of_mem c h)
    rw [List.cons_append]
    show splitNl (c :: (r ++ '\n' :: b)) = (c :: r) :: splitNl b
    rw [splitNl, if_neg hc, ih hr]

/-- C6: pre-hunk immunity.  Prepending any lines that are not valid hunk
headers (metadata such as `diff --git ...` or `index ...`, or anything
else failing the hunk-header test) before a patch's lines never changes
the result of the position mapper, for every target line and side; at the
patch-string level, prepending one metadata line plus a newline in front
of the patch text leaves every result unchanged; and the empty patch
always yields NotFound. -/
theorem prehunk_immunity :
    (∀ (junk lines : List (List Char)) (t : Int) (side : Side),
        (∀ l ∈ junk, isValidHunkHeader l = false) →
        findPositionLines (junk ++ lines) t side =
          findPositionLines lines t side) ∧
      (∀ (meta patch : String) (t : Int) (side : Side), '\n' ∉ meta.data →
        isValidHunkHeader meta.data = false →
        findPositionInDiff (meta ++ "\n" ++ patch) t side =
          findPositionInDiff patch t side) ∧
      (∀ (t : Int) (side : Side), findPositionInDiff "" t side = none) := by
  refine ⟨?_, ?_, ?_⟩
  · intro junk lines t side hjunk
    exact findPosAux_skip_junk side t junk lines hjunk 0 0 0 0 0 0
  · intro meta patch t side hnl hmeta
    show findPositionLines (splitNl (meta ++ "\n" ++ patch).data) t side = _
    have hdata : (meta ++ "\n" ++ patch).data =
        meta.data ++ '\n' :: patch.data := by
      rw [String.data_append, String.data_append]
      show meta.data ++ ['\n'] ++ patch.data = _
      rw [List.append_assoc]
      rfl
    rw [hdata, splitNl_append_newline meta.data patch.data hnl]
    exact findPosAux_skip_junk side t [meta.data] (splitNl patch.data)
      (by intro l hl; rw [List.mem_singleton.mp hl]; exact hmeta) 0 0 0 0 0 0
  · intro t side
    show findPosAux side t 0 0 none 0 [[]] = none
    rw [findPosAux_cons_prehunk side t 0 0 0 [] [] (by rfl)]
    rfl

/-- Witness for `prehunk_immunity` at concrete metadata lines and a
concrete patch. -/
theorem prehunk_immunity_witness :
    findPositionLines (["diff --git a/foo.js b/foo.js".data,
        "index abc1234..def5678 100644".data] ++
        ["@@ -1,2 +1,2 @@".data, "-removed".data, " some".data,
          "+added".data]) 1 Side.RIGHT =
      findPositionLines ["@@ -1,2 +1,2 @@".data, "-removed".data,
        " some".data, "+added".data] 1 Side.RIGHT ∧
      findPositionInDiff ("index abc1234..def5678 100644" ++ "\n" ++
          "@@ -1,2 +1,2 @@\n-removed\n some\n+added") 1 Side.RIGHT =
        findPositionInDiff "@@ -1,2 +1,2 @@\n-removed\n some\n+added" 1
          Side.RIGHT ∧
      findPositionInDiff "" 1 Side.RIGHT = none :=
  ⟨prehunk_immunity.1 ["diff --git a/foo.js b/foo.js".data,
      "index abc1234..def5678 100644".data]
      ["@@ -1,2 +1,2 @@".data, "-removed".data, " some".data,
        "+added".data] 1 Side.RIGHT (by decide),
    prehunk_immunity.2.1 "index abc1234..def5678 100644"
      "@@ -1,2 +1,2 @@\n-removed\n some\n+added" 1 Side.RIGHT (by decide)
      (by decide),
    prehunk_immunity.2.2 1 Side.RIGHT⟩

/-- Unfolding `sideNumbersAux` at a valid hunk header. -/
theorem sideNumbersAux_header (side : Side) (oldL newL : Int) (found : Bool)
    (l : List Char) (ls : List (List Char)) (o n : Nat)
    (h1 : isHunkPrefix l = true) (hp : parseHunkHeader l = some (o, n)) :
    sideNumbersAux side oldL newL found (l :: ls) =
      sideNumbersAux side ((o : Int) - 1) ((n : Int) - 1) true ls := by
  simp [sideNumbersAux, h1, hp]

/-- Unfolding `sideNumbersAux` at an invalid `"@@ "` line. -/
theorem sideNumbersAux_badheader (side : Side) (oldL newL : Int)
    (found : Bool) (l : List Char) (ls : List (List Char))
    (h1 : isHunkPrefix l = true) (hp : parseHunkHeader l = none) :
    sideNumbersAux side oldL newL found (l :: ls) =
      sideNumbersAux side oldL newL found ls := by
  simp [sideNumbersAux, h1, hp]

/-- Unfolding `sideNumbersAux` at a content line after the first hunk. -/
theorem sideNumbersAux_content (side : Side) (oldL newL : Int)
    (l : List Char) (ls : List (List Char)) (h1 : isHunkPrefix l = false) :
    sideNumbersAux side oldL newL true (l :: ls) =
      (if sideAdvances side l then
          sideCounter side (advanceCounters oldL newL l).1
              (advanceCounters oldL newL l).2 ::
            sideNumbersAux side (advanceCounters oldL newL l).1
              (advanceCounters oldL newL l).2 true ls
        else sideNumbersAux side (advanceCounters oldL newL l).1
          (advanceCounters oldL newL l).2 true ls) := by
  simp [sideNumbersAux, h1]

/-- Unfolding `sideNumbersAux` at a pre-hunk content line. -/
theorem sideNumbersAux_prehunk (side : Side) (oldL newL : Int)
    (l : List Char) (ls : List (List Char)) (h1 : isHunkPrefix l = false) :
    sideNumbersAux side oldL newL false (l :: ls) =
      sideNumbersAux side oldL newL false ls := by
  simp [sideNumbersAux, h1]

/-- Unfolding `preStartsLines` at a valid hunk header. -/
theorem preStartsLines_header (side : Side) (l : List Char)
    (ls : List (List Char)) (o n : Nat) (h1 : isHunkPrefix l = true)
    (hp : parseHunkHeader l = some (o, n)) :
    preStartsLines side (l :: ls) =
      sideCounter side ((o : Int) - 1) ((n : Int) - 1) ::
        preStartsLines side ls := by
  simp [preStartsLines, h1, hp]

/-- Unfolding `preStartsLines` at a line that is not a valid header. -/
theorem preStartsLines_skip (side : Side) (l : List Char)
    (ls : List (List Char)) (h : isValidHunkHeader l = false) :
    preStartsLines side (l :: ls) = preStartsLines side ls := by
  by_cases h1 : isHunkPrefix l
  · have hp : parseHunkHeader l = none := by
      cases hp : parseHunkHeader l with
      | none => rfl
      | some x => exfalso; simp [isValidHunkHeader, h1, hp] at h
    simp [preStartsLines, h1, hp]
  · have h1f : isHunkPrefix l = false := by simpa using h1
    simp [preStartsLines, h1f]

/-- In the found state, a target matched by the scan either equals the
current value of the chosen side's counter, or is one of the side numbers
contributed by the remaining lines, or is a `sideStart - 1` value of a
remaining valid hunk header. -/
theorem findPosAux_found_mem (side : Side) (t : Int)
    (ls : List (List Char)) :
    ∀ (oldL newL : Int) (f i : Nat) (p : Nat),
      findPosAux side t oldL newL (some f) i ls = some p →
      t = sideCounter side oldL newL ∨
        t ∈ sideNumbersAux side oldL newL true ls ∨
        t ∈ preStartsLines side ls := by
  induction ls with
  | nil => intro oldL newL f i p h; simp [findPosAux] at h
  | cons l ls ih =>
    intro oldL newL f i p h
    by_cases h1 : isHunkPrefix l
    · cases hp : parseHunkHeader l with
      | none =>
        rw [findPosAux_cons_badheader side t oldL newL _ _ l ls h1 hp] at h
        rw [sideNumbersAux_badheader side oldL newL true l ls h1 hp,
          preStartsLines_skip side l ls (by simp [isValidHunkHeader, hp])]
        exact ih oldL newL f (i + 1) p h
      | some pr =>
        obtain ⟨o, n⟩ := pr
        rw [findPosAux_cons_header side t oldL newL _ _ l ls o n h1 hp] at h
        simp only [Option.getD_some] at h
        rw [sideNumbersAux_header side oldL newL true l ls o n h1 hp,
          preStartsLines_header side l ls o n h1 hp]
        rcases ih _ _ f (i + 1) p h with hcur | hsn | hps
        · exact Or.inr (Or.inr (by simp [hcur]))
        · exact Or.inr (Or.inl hsn)
        · exact Or.inr (Or.inr (List.mem_cons_of_mem _ hps))
    · have h1f : isHunkPrefix l = false := by simpa using h1
      rw [findPosAux_cons_content side t oldL newL _ _ l ls h1f] at h
      rw [sideNumbersAux_content side oldL newL l ls h1f,
        preStartsLines_skip side l ls (by simp [isValidHunkHeader, h1f])]
      have hstep := sideCounter_advance side oldL newL l
      by_cases hc :
          sideCounter side (advanceCounters oldL newL l).1
            (advanceCounters oldL newL l).2 = t
      · by_cases hadv : sideAdvances side l
        · rw [if_pos hadv]
          exact Or.inr (Or.inl (by simp [hc]))
        · left
          have hadvf : sideAdvances side l = false := by simpa using hadv
          rw [hadvf] at hstep
          simp at hstep
          omega
      · simp only [hc, if_false] at h
        rcases ih _ _ f (i + 1) p h with hcur | hsn | hps
        · by_cases hadv : sideAdvances side l
          · rw [if_pos hadv]
            exact Or.inr (Or.inl (by simp [hcur]))
          · left
            have hadvf : sideAdvances side l = false := by simpa using hadv
            rw [hadvf] at hstep
            simp at hstep
            omega
        · by_cases hadv : sideAdvances side l
          · rw [if_pos hadv]
            exact Or.inr (Or.inl (List.mem_cons_of_mem _ hsn))
          · rw [if_neg hadv]
            exact Or.inr (Or.inl hsn)
        · exact Or.inr (Or.inr hps)

/-- From the initial state, a target matched by the scan is a side number
of the patch or a `sideStart - 1` value of one of its valid headers. -/
theorem findPosAux_none_mem (side : Side) (t : Int)
    (ls : List (List Char)) :
    ∀ (a b : Int) (i : Nat) (p : Nat),
      findPosAux side t a b none i ls = some p →
      t ∈ sideNumbersAux side a b false ls ∨ t ∈ preStartsLines side ls := by
  induction ls with
  | nil => intro a b i p h; simp [findPosAux] at h
  | cons l ls ih =>
    intro a b i p h
    by_cases h1 : isHunkPrefix l
    · cases hp : parseHunkHeader l with
      | none =>
        rw [findPosAux_cons_badheader side t a b _ _ l ls h1 hp] at h
        rw [sideNumbersAux_badheader side a b false l ls h1 hp,
          preStartsLines_skip side l ls (by simp [isValidHunkHeader, hp])]
        exact ih a b (i + 1) p h
      | some pr =>
        obtain ⟨o, n⟩ := pr
        rw [findPosAux_cons_header side t a b _ _ l ls o n h1 hp] at h
        simp only [Option.getD_none] at h
        rw [sideNumbersAux_header side a b false l ls o n h1 hp,
          preStartsLines_header side l ls o n h1 hp]
        rcases findPosAux_found_mem side t ls _ _ i (i + 1) p h with
          hcur | hsn | hps
        · exact Or.inr (by simp [hcur])
        · exact Or.inl hsn
        · exact Or.inr (List.mem_cons_of_mem _ hps)
    · have h1f : isHunkPrefix l = false := by simpa using h1
      rw [findPosAux_cons_prehunk side t a b _ l ls h1f] at h
      rw [sideNumbersAux_prehunk side a b l ls h1f,
        preStartsLines_skip side l ls (by simp [isValidHunkHeader, h1f])]
      exact ih a b (i + 1) p h

/-- C1 (amended): for every patch, side, and target line that is neither
present in the chosen side's numbering within any hunk of the patch nor
equal to `sideStart - 1` of one of the patch's valid hunk headers,
`findPositionInDiff` returns NotFound.  (The `sideStart - 1` exception is
forced by the source: the target check inspects only the counter, not the
kind of the line just processed, so a non-advancing line directly after a
hunk header can match the counter value the header just installed.) -/
theorem outOfRange_notFound (patch : String) (t : Int) (side : Side)
    (h1 : t ∉ sideNumbers patch side) (h2 : t ∉ preStarts patch side) :
    findPositionInDiff patch t side = none := by
  cases hres : findPositionInDiff patch t side with
  | none => rfl
  | some p =>
    exfalso
    rcases findPosAux_none_mem side t (splitNl patch.data) 0 0 0 p hres with
      h | h
    · exact h1 h
    · exact h2 h

/-- Witness for `outOfRange_notFound` at a concrete patch: new-file line
3 is outside the single hunk `+1,2` and no header start matches, so the
mapper returns NotFound. -/
theorem outOfRange_notFound_witness :
    findPositionInDiff "@@ -1,2 +1,2 @@\n-removed\n some\n+added" 3
      Side.RIGHT = none :=
  outOfRange_notFound "@@ -1,2 +1,2 @@\n-removed\n some\n+added" 3
    Side.RIGHT (by decide) (by decide)

/-- Counterexample to C1 as stated: in the patch `@@ -1,2 +5,1 @@` the
new-file numbering within the hunk is exactly `[5]`, yet querying the
absent new-file line 4 returns position 1 — the deletion line `-a`
directly after the header leaves the new counter at `5 - 1 = 4` and the
check fires on it even though it is a deletion line. -/
theorem outOfRange_notFound_cex :
    findPositionInDiff "@@ -1,2 +5,1 @@\n-a\n b" 4 Side.RIGHT = some 1 ∧
      sideNumbers "@@ -1,2 +5,1 @@\n-a\n b" Side.RIGHT = [5] ∧
      (4 : Int) ∉ sideNumbers "@@ -1,2 +5,1 @@\n-a\n b" Side.RIGHT := by
  refine ⟨by decide, by decide, by decide⟩

/-- Unfolding `headersMonotoneAux` at a valid hunk header. -/
theorem headersMonotoneAux_header (side : Side) (oldL newL : Int)
    (found : Bool) (l : List Char) (ls : List (List Char)) (o n : Nat)
    (h1 : isHunkPrefix l = true) (hp : parseHunkHeader l = some (o, n)) :
    headersMonotoneAux side oldL newL found (l :: ls) =
      ((!found || decide (sideCounter side oldL newL ≤
          sideCounter side ((o : Int) - 1) ((n : Int) - 1))) &&
        headersMonotoneAux side ((o : Int) - 1) ((n : Int) - 1) true ls) := by
  simp [headersMonotoneAux, h1, hp]

/-- Unfolding `headersMonotoneAux` at an invalid `"@@ "` line. -/
theorem headersMonotoneAux_badheader (side : Side) (oldL newL : Int)
    (found : Bool) (l : List Char) (ls : List (List Char))
    (h1 : isHunkPrefix l = true) (hp : parseHunkHeader l = none) :
    headersMonotoneAux side oldL newL found (l :: ls) =
      headersMonotoneAux side oldL newL found ls := by
  simp [headersMonotoneAux, h1, hp]

/-- Unfolding `headersMonotoneAux` at a content line after the first
hunk header. -/
theorem headersMonotoneAux_content (side : Side) (oldL newL : Int)
    (l : List Char) (ls : List (List Char)) (h1 : isHunkPrefix l = false) :
    headersMonotoneAux side oldL newL true (l :: ls) =
      headersMonotoneAux side (advanceCounters oldL newL l).1
        (advanceCounters oldL newL l).2 true ls := by
  simp [headersMonotoneAux, h1]

/-- Unfolding `headersMonotoneAux` at a pre-hunk content line. -/
theorem headersMonotoneAux_prehunk (side : Side) (oldL newL : Int)
    (l : List Char) (ls : List (List Char)) (h1 : isHunkPrefix l = false) :
    headersMonotoneAux side oldL newL false (l :: ls) =
      headersMonotoneAux side oldL newL false ls := by
  simp [headersMonotoneAux, h1]

/-- When the hunk headers never move the chosen side's counter backwards,
any matched target is at least the current counter value. -/
theorem findPosAux_mono_target_ge (side : Side) (t : Int)
    (ls : List (List Char)) :
    ∀ (oldL newL : Int) (f i : Nat) (p : Nat),
      headersMonotoneAux side oldL newL true ls = true →
      findPosAux side t oldL newL (some f) i ls = some p →
      sideCounter side oldL newL ≤ t := by
  induction ls with
  | nil => intro oldL newL f i p _ h; simp [findPosAux] at h
  | cons l ls ih =>
    intro oldL newL f i p hmono h
    by_cases h1 : isHunkPrefix l
    · cases hp : parseHunkHeader l with
      | none =>
        rw [findPosAux_cons_badheader side t oldL newL _ _ l ls h1 hp] at h
        rw [headersMonotoneAux_badheader side oldL newL true l ls h1 hp]
          at hmono
        exact ih oldL newL f (i + 1) p hmono h
      | some pr =>
        obtain ⟨o, n⟩ := pr
        rw [findPosAux_cons_header side t oldL newL _ _ l ls o n h1 hp] at h
        simp only [Option.getD_some] at h
        rw [headersMonotoneAux_header side oldL newL true l ls o n h1 hp]
          at hmono
        simp only [Bool.not_true, Bool.false_or, Bool.and_eq_true,
          decide_eq_true_eq] at hmono
        have := ih _ _ f (i + 1) p hmono.2 h
        omega
    · have h1f : isHunkPrefix l = false := by simpa using h1
      rw [findPosAux_cons_content side t oldL newL _ _ l ls h1f] at h
      rw [headersMonotoneAux_content side oldL newL l ls h1f] at hmono
      have hstep := sideCounter_advance side oldL newL l
      by_cases hc :
          sideCounter side (advanceCounters oldL newL l).1
            (advanceCounters oldL newL l).2 = t
      · rw [hc] at hstep
        split at hstep <;> omega
      · simp only [hc, if_false] at h
        have := ih _ _ f (i + 1) p hmono h
        rw [hstep] at this
        split at this <;> omega

/-- Main induction for strict monotonicity in the found state: under
monotone headers the first hit of a smaller target comes strictly
earlier. -/
theorem findPosAux_mono_strict (side : Side) (a b : Int)
    (ls : List (List Char)) :
    ∀ (oldL newL : Int) (f i : Nat) (pa pb : Nat),
      headersMonotoneAux side oldL newL true ls = true → f ≤ i → a < b →
      findPosAux side a oldL newL (some f) i ls = some pa →
      findPosAux side b oldL newL (some f) i ls = some pb →
      pa < pb := by
  induction ls with
  | nil => intro oldL newL f i pa pb _ _ _ ha _; simp [findPosAux] at ha
  | cons l ls ih =>
    intro oldL newL f i pa pb hmono hfi hab ha hb
    by_cases h1 : isHunkPrefix l
    · cases hp : parseHunkHeader l with
      | none =>
        rw [findPosAux_cons_badheader side a oldL newL _ _ l ls h1 hp] at ha
        rw [findPosAux_cons_badheader side b oldL newL _ _ l ls h1 hp] at hb
        rw [headersMonotoneAux_badheader side oldL newL true l ls h1 hp]
          at hmono
        exact ih oldL newL f (i + 1) pa pb hmono (by omega) hab ha hb
      | some pr =>
        obtain ⟨o, n⟩ := pr
        rw [findPosAux_cons_header side a oldL newL _ _ l ls o n h1 hp] at ha
        rw [findPosAux_cons_header side b oldL newL _ _ l ls o n h1 hp] at hb
        simp only [Option.getD_some] at ha hb
        rw [headersMonotoneAux_header side oldL newL true l ls o n h1 hp]
          at hmono
        simp only [Bool.not_true, Bool.false_or, Bool.and_eq_true,
          decide_eq_true_eq] at hmono
        exact ih _ _ f (i + 1) pa pb hmono.2 (by omega) hab ha hb
    · have h1f : isHunkPrefix l = false := by simpa using h1
      rw [findPosAux_cons_content side a oldL newL _ _ l ls h1f] at ha
      rw [findPosAux_cons_content side b oldL newL _ _ l ls h1f] at hb
      rw [headersMonotoneAux_content side oldL newL l ls h1f] at hmono
      by_cases hca :
          sideCounter side (advanceCounters oldL newL l).1
            (advanceCounters oldL newL l).2 = a
      · have hcb : ¬sideCounter side (advanceCounters oldL newL l).1
            (advanceCounters oldL newL l).2 = b := by omega
        rw [if_pos hca] at ha
        rw [if_neg hcb] at hb
        have hlb := findPosAux_lb side b ls _ _ f (i + 1) pb hb
        simp only [Option.some.injEq] at ha
        omega
      · rw [if_neg hca] at ha
        by_cases hcb :
            sideCounter side (advanceCounters oldL newL l).1
              (advanceCounters oldL newL l).2 = b
        · exfalso
          have := findPosAux_mono_target_ge side a ls _ _ f (i + 1) pa
            hmono ha
          omega
        · rw [if_neg hcb] at hb
          exact ih _ _ f (i + 1) pa pb hmono (by omega) hab ha hb

/-- Strict monotonicity lifted to the initial (pre-first-hunk) state. -/
theorem findPosAux_mono_strict_none (side : Side) (a b : Int)
    (ls : List (List Char)) :
    ∀ (oldL newL : Int) (i : Nat) (pa pb : Nat),
      headersMonotoneAux side oldL newL false ls = true → a < b →
      findPosAux side a oldL newL none i ls = some pa →
      findPosAux side b oldL newL none i ls = some pb →
      pa < pb := by
  induction ls with
  | nil => intro oldL newL i pa pb _ _ ha _; simp [findPosAux] at ha
  | cons l ls ih =>
    intro oldL newL i pa pb hmono hab ha hb
    by_cases h1 : isHunkPrefix l
    · cases hp : parseHunkHeader l with
      | none =>
        rw [findPosAux_cons_badheader side a oldL newL _ _ l ls h1 hp] at ha
        rw [findPosAux_cons_badheader side b oldL newL _ _ l ls h1 hp] at hb
        rw [headersMonotoneAux_badheader side oldL newL false l ls h1 hp]
          at hmono
        exact ih oldL newL (i + 1) pa pb hmono hab ha hb
      | some pr =>
        obtain ⟨o, n⟩ := pr
        rw [findPosAux_cons_header side a oldL newL _ _ l ls o n h1 hp] at ha
        rw [findPosAux_cons_header side b oldL newL _ _ l ls o n h1 hp] at hb
        simp only [Option.getD_none] at ha hb
        rw [headersMonotoneAux_header side oldL newL false l ls o n h1 hp]
          at hmono
        simp only [Bool.not_false, Bool.true_or, Bool.true_and] at hmono
        exact findPosAux_mono_strict side a b ls _ _ i (i + 1) pa pb hmono
          (by omega) hab ha hb
    · have h1f : isHunkPrefix l = false := by simpa using h1
      rw [findPosAux_cons_prehunk side a oldL newL _ l ls h1f] at ha
      rw [findPosAux_cons_prehunk side b oldL newL _ l ls h1f] at hb
      rw [headersMonotoneAux_prehunk side oldL newL l ls h1f] at hmono
      exact ih oldL newL (i + 1) pa pb hmono hab ha hb

/-- C4 (amended): for every patch whose valid hunk headers never move the
chosen side's counter backwards (hunks in order, non-overlapping on that
side — every well-formed unified diff), and every two target lines
`a < b` both mappable on that side, the returned positions satisfy
`findPositionInDiff patch a side < findPositionInDiff patch b side`;
position counting is continuous across hunk boundaries and a later hunk
header never resets the zero-reference point. -/
theorem positions_strict_mono (patch : String) (side : Side) (a b : Int)
    (pa pb : Nat) (hmono : headersMonotone patch side = true) (hab : a < b)
    (ha : findPositionInDiff patch a side = some pa)
    (hb : findPositionInDiff patch b side = some pb) : pa < pb :=
  findPosAux_mono_strict_none side a b (splitNl patch.data) 0 0 0 pa pb
    hmono hab ha hb

/-- Witness for `positions_strict_mono` on the repository's own two-hunk
test patch: new-file lines 2 and 12 map to positions 3 and 7. -/
theorem positions_strict_mono_witness :
    findPositionInDiff "@@ -1,3 +1,4 @@\n line one\n-old line\n+new line\n line three\n@@ -10,2 +11,3 @@\n other content\n+added line\n final line"
        2 Side.RIGHT = some 3 ∧
      findPositionInDiff "@@ -1,3 +1,4 @@\n line one\n-old line\n+new line\n line three\n@@ -10,2 +11,3 @@\n other content\n+added line\n final line"
        12 Side.RIGHT = some 7 ∧
      (3 : Nat) < 7 :=
  ⟨by decide, by decide,
    positions_strict_mono
      "@@ -1,3 +1,4 @@\n line one\n-old line\n+new line\n line three\n@@ -10,2 +11,3 @@\n other content\n+added line\n final line"
      Side.RIGHT 2 12 3 7 (by decide) (by decide) (by decide) (by decide)⟩

/-- Counterexample to C4 as stated for arbitrary patches: in a patch
whose second hunk header jumps the new-file counter backwards, the
targets `1 < 10` are both mappable on the RIGHT side but map to positions
`3 > 1`. -/
theorem positions_strict_mono_cex :
    (1 : Int) < 10 ∧
      findPositionInDiff "@@ -10,1 +10,1 @@\n x\n@@ -1,1 +1,1 @@\n y" 1
        Side.RIGHT = some 3 ∧
      findPositionInDiff "@@ -10,1 +10,1 @@\n x\n@@ -1,1 +1,1 @@\n y" 10
        Side.RIGHT = some 1 ∧
      ¬((3 : Nat) < 1) := by
  refine ⟨by decide, by decide, by decide, by decide⟩

/-- Unfolding the legacy scan at a valid hunk header. -/
theorem findPosLegacyAux_cons_header (t newL : Int) (fh : Option Nat)
    (i : Nat) (l : List Char) (ls : List (List Char)) (o n : Nat)
    (h1 : isHunkPrefix l = true) (hp : parseHunkHeader l = some (o, n)) :
    findPosLegacyAux t newL fh i (l :: ls) =
      findPosLegacyAux t ((n : Int) - 1) (some (fh.getD i)) (i + 1) ls := by
  simp [findPosLegacyAux, h1, hp]

/-- Unfolding the legacy scan at an invalid `"@@ "` line. -/
theorem findPosLegacyAux_cons_badheader (t newL : Int) (fh : Option Nat)
    (i : Nat) (l : List Char) (ls : List (List Char))
    (h1 : isHunkPrefix l = true) (hp : parseHunkHeader l = none) :
    findPosLegacyAux t newL fh i (l :: ls) =
      findPosLegacyAux t newL fh (i + 1) ls := by
  simp [findPosLegacyAux, h1, hp]

/-- Unfolding the legacy scan at a pre-hunk content line. -/
theorem findPosLegacyAux_cons_prehunk (t newL : Int) (i : Nat)
    (l : List Char) (ls : List (List Char)) (h1 : isHunkPrefix l = false) :
    findPosLegacyAux t newL none i (l :: ls) =
      findPosLegacyAux t newL none (i + 1) ls := by
  simp [findPosLegacyAux, h1]

/-- Unfolding the legacy scan at a content line after the first hunk. -/
theorem findPosLegacyAux_cons_content (t newL : Int) (f i : Nat)
    (l : List Char) (ls : List (List Char)) (h1 : isHunkPrefix l = false) :
    findPosLegacyAux t newL (some f) i (l :: ls) =
      (if startsChar '+' l || startsChar ' ' l then
          if newL + 1 = t then some (i - f)
          else findPosLegacyAux t (newL + 1) (some f) (i + 1) ls
        else findPosLegacyAux t newL (some f) (i + 1) ls) := by
  simp [findPosLegacyAux, h1]

/-- The new-file counter advances exactly on addition and context
lines. -/
theorem advanceCounters_right (oldL newL : Int) (l : List Char) :
    (advanceCounters oldL newL l).2 =
      (if startsChar '+' l || startsChar ' ' l then newL + 1 else newL) := by
  cases l with
  | nil => simp [advanceCounters, startsChar]
  | cons c cs =>
    simp only [advanceCounters, startsChar]
    by_cases h1 : c = ' ' <;> by_cases h2 : c = '-' <;>
      by_cases h3 : c = '+' <;> simp_all

/-- Every position produced by the legacy scan from line index `i` with
recorded first hunk index `f` is at least `i - f`. -/
theorem findPosLegacyAux_lb (t : Int) (ls : List (List Char)) :
    ∀ (newL : Int) (f i : Nat) (p : Nat),
      findPosLegacyAux t newL (some f) i ls = some p → i - f ≤ p := by
  induction ls with
  | nil => intro newL f i p h; simp [findPosLegacyAux] at h
  | cons l ls ih =>
    intro newL f i p h
    by_cases h1 : isHunkPrefix l
    · cases hp : parseHunkHeader l with
      | none =>
        rw [findPosLegacyAux_cons_badheader t newL _ _ l ls h1 hp] at h
        have := ih newL f (i + 1) p h
        omega
      | some pr =>
        obtain ⟨o, n⟩ := pr
        rw [findPosLegacyAux_cons_header t newL _ _ l ls o n h1 hp] at h
        simp only [Option.getD_some] at h
        have := ih _ f (i + 1) p h
        omega
    · have h1f : isHunkPrefix l = false := by simpa using h1
      rw [findPosLegacyAux_cons_content t newL f i l ls h1f] at h
      by_cases hadv : (startsChar '+' l || startsChar ' ' l) = true
      · rw [if_pos hadv] at h
        by_cases hc : newL + 1 = t
        · simp only [hc, if_true, Option.some.injEq] at h
          omega
        · simp only [hc, if_false] at h
          have := ih _ f (i + 1) p h
          omega
      · rw [if_neg hadv] at h
        have := ih newL f (i + 1) p h
        omega

/-- Simulation in the found state: whenever the legacy scan returns a
position, the dual-side scan for RIGHT (which checks the same new-file
counter after every line, not only after additions and context lines)
returns a position that is at most the legacy one. -/
theorem legacy_sim_found (t : Int) (ls : List (List Char)) :
    ∀ (oldL newL : Int) (f i : Nat) (p : Nat),
      findPosLegacyAux t newL (some f) i ls = some p →
      ∃ p', findPosAux Side.RIGHT t oldL newL (some f) i ls = some p' ∧
        p' ≤ p := by
  induction ls with
  | nil => intro oldL newL f i p h; simp [findPosLegacyAux] at h
  | cons l ls ih =>
    intro oldL newL f i p h
    by_cases h1 : isHunkPrefix l
    · cases hp : parseHunkHeader l with
      | none =>
        rw [findPosLegacyAux_cons_badheader t newL _ _ l ls h1 hp] at h
        rw [findPosAux_cons_badheader Side.RIGHT t oldL newL _ _ l ls h1 hp]
        exact ih oldL newL f (i + 1) p h
      | some pr =>
        obtain ⟨o, n⟩ := pr
        rw [findPosLegacyAux_cons_header t newL _ _ l ls o n h1 hp] at h
        rw [findPosAux_cons_header Side.RIGHT t oldL newL _ _ l ls o n h1 hp]
        simp only [Option.getD_some] at h ⊢
        exact ih _ _ f (i + 1) p h
    · have h1f : isHunkPrefix l = false := by simpa using h1
      rw [findPosLegacyAux_cons_content t newL f i l ls h1f] at h
      rw [findPosAux_cons_content Side.RIGHT t oldL newL f i l ls h1f]
      have hright : sideCounter Side.RIGHT (advanceCounters oldL newL l).1
          (advanceCounters oldL newL l).2 =
          (if startsChar '+' l || startsChar ' ' l then newL + 1
            else newL) := by
        rw [← advanceCounters_right oldL newL l]; rfl
      by_cases hadv : (startsChar '+' l || startsChar ' ' l) = true
      · rw [if_pos hadv] at h
        rw [hright, if_pos hadv]
        by_cases hc : newL + 1 = t
        · simp only [hc, if_true, Option.some.injEq] at h ⊢
          exact ⟨p, h, le_refl p⟩
        · simp only [hc, if_false] at h ⊢
          rw [advanceCounters_right oldL newL l, if_pos hadv]
          exact ih _ _ f (i + 1) p h
      · rw [if_neg hadv] at h
        rw [hright, if_neg hadv]
        by_cases hc : newL = t
        · refine ⟨i - f, by simp [hc], ?_⟩
          have := findPosLegacyAux_lb t ls newL f (i + 1) p h
          omega
        · simp only [hc, if_false]
          rw [advanceCounters_right oldL newL l, if_neg hadv]
          exact ih _ _ f (i + 1) p h

/-- Simulation in the initial state. -/
theorem legacy_sim_none (t : Int) (ls : List (List Char)) :
    ∀ (a oldL newL : Int) (i : Nat) (p : Nat),
      findPosLegacyAux t a none i ls = some p →
      ∃ p', findPosAux Side.RIGHT t oldL newL none i ls = some p' ∧
        p' ≤ p := by
  induction ls with
  | nil => intro a oldL newL i p h; simp [findPosLegacyAux] at h
  | cons l ls ih =>
    intro a oldL newL i p h
    by_cases h1 : isHunkPrefix l
    · cases hp : parseHunkHeader l with
      | none =>
        rw [findPosLegacyAux_cons_badheader t a _ _ l ls h1 hp] at h
        rw [findPosAux_cons_badheader Side.RIGHT t oldL newL _ _ l ls h1 hp]
        exact ih a oldL newL (i + 1) p h
      | some pr =>
        obtain ⟨o, n⟩ := pr
        rw [findPosLegacyAux_cons_header t a _ _ l ls o n h1 hp] at h
        rw [findPosAux_cons_header Side.RIGHT t oldL newL _ _ l ls o n h1 hp]
        simp only [Option.getD_none] at h ⊢
        exact legacy_sim_found t ls _ _ i (i + 1) p h
    · have h1f : isHunkPrefix l = false := by simpa using h1
      rw [findPosLegacyAux_cons_prehunk t a _ l ls h1f] at h
      rw [findPosAux_cons_prehunk Side.RIGHT t oldL newL _ l ls h1f]
      exact ih a oldL newL (i + 1) p h

/-- C2 (amended): the dual-side mapper with `side = RIGHT` refines the
legacy no-side mapper — whenever the legacy mapper returns a position,
the dual-side mapper also returns a position, and at most the legacy one.
The two are not always equal: the dual-side mapper checks the new-file
counter after every physical line, so it can match a deletion or
unclassified line whose counter already equals the target (which the
legacy mapper, checking only after additions and context lines, never
matches). -/
theorem legacy_refines_dual (patch : String) (t : Int) (p : Nat)
    (h : findPositionInDiffLegacy patch t = some p) :
    ∃ p', findPositionInDiff patch t Side.RIGHT = some p' ∧ p' ≤ p :=
  legacy_sim_none t (splitNl patch.data) 0 0 0 0 p h

/-- Witness for `legacy_refines_dual` at a concrete patch: the legacy
result 2 for new-file line 1 is matched by the dual mapper. -/
theorem legacy_refines_dual_witness :
    findPositionInDiffLegacy "@@ -1,2 +1,2 @@\n-removed\n some\n+added" 1 =
        some 2 ∧
      ∃ p', findPositionInDiff "@@ -1,2 +1,2 @@\n-removed\n some\n+added" 1
          Side.RIGHT = some p' ∧ p' ≤ 2 :=
  ⟨by decide,
    legacy_refines_dual "@@ -1,2 +1,2 @@\n-removed\n some\n+added" 1 2
      (by decide)⟩

/-- Counterexample to C2 as stated: on the patch `@@ -1,2 +5,1 @@` with
target 4, the legacy mapper returns NotFound while the dual-side mapper
with RIGHT returns position 1 (it matches the deletion line directly
after the header, whose new-file counter is `5 - 1 = 4`). -/
theorem legacy_refines_dual_cex :
    findPositionInDiffLegacy "@@ -1,2 +5,1 @@\n-a\n b" 4 = none ∧
      findPositionInDiff "@@ -1,2 +5,1 @@\n-a\n b" 4 Side.RIGHT = some 1 := by
  refine ⟨by decide, by decide⟩

/-! ## Prompt packer theorems -/

/-- Concatenation of the rendered blocks of a patch list, in order. -/
def concatBlocks (l : List PatchInfo) : String :=
  l.foldr (fun p s => patchBlock p ++ s) ""

/-- Specification relation for the patch loop of `packCommit`, following
the spec's packing algorithm: with `accumulated` prompt text and the
commit block built so far, each patch is considered in order; it is used
(its block appended to the commit block) exactly when the tokenizer check
of `accumulated + block-so-far + patch block` succeeds at that moment,
and skipped otherwise, with scanning always continuing to the next
patch. -/
inductive PackSpec (accumulated : String) (fits : String → Bool) :
    String → List PatchInfo → String → List PatchInfo → List PatchInfo →
      Prop
  | nil (block : String) : PackSpec accumulated fits block [] block [] []
  | used (block : String) (p : PatchInfo) (ps : List PatchInfo)
      (outB : String) (u s : List PatchInfo)
      (hfit : fits (accumulated ++ block ++ patchBlock p) = true)
      (htail :
        PackSpec accumulated fits (block ++ patchBlock p) ps outB u s) :
      PackSpec accumulated fits block (p :: ps) outB (p :: u) s
  | skipped (block : String) (p : PatchInfo) (ps : List PatchInfo)
      (outB : String) (u s : List PatchInfo)
      (hfit : fits (accumulated ++ block ++ patchBlock p) = false)
      (htail : PackSpec accumulated fits block ps outB u s) :
      PackSpec accumulated fits block (p :: ps) outB u (p :: s)

/-- The patch loop satisfies the specification relation. -/
theorem packCommitLoop_spec (accumulated : String) (fits : String → Bool)
    (ps : List PatchInfo) :
    ∀ block : String,
      PackSpec accumulated fits block ps
        (packCommitLoop accumulated fits block ps).block
        (packCommitLoop accumulated fits block ps).usedPatches
        (packCommitLoop accumulated fits block ps).skippedPatches := by
  induction ps with
  | nil => intro block; exact PackSpec.nil block
  | cons p ps ih =>
    intro block
    by_cases hf : fits (accumulated ++ block ++ patchBlock p) = true
    · simpa [packCommitLoop, hf] using
        PackSpec.used block p ps _ _ _ hf (ih (block ++ patchBlock p))
    · have hf' : fits (accumulated ++ block ++ patchBlock p) = false := by
        simpa using hf
      simpa [packCommitLoop, hf'] using
        PackSpec.skipped block p ps _ _ _ hf' (ih block)

/-- The used patches form an order-preserving subsequence of the input. -/
theorem packCommitLoop_used_sublist (accumulated : String)
    (fits : String → Bool) (ps : List PatchInfo) :
    ∀ block : String,
      (packCommitLoop accumulated fits block ps).usedPatches.Sublist ps := by
  induction ps with
  | nil => intro block; simp [packCommitLoop]
  | cons p ps ih =>
    intro block
    by_cases hf : fits (accumulated ++ block ++ patchBlock p) = true
    · simpa [packCommitLoop, hf] using (ih (block ++ patchBlock p)).cons₂ p
    · have hf' : fits (accumulated ++ block ++ patchBlock p) = false := by
        simpa using hf
      simpa [packCommitLoop, hf'] using (ih block).cons p

/-- The skipped patches form an order-preserving subsequence of the
input. -/
theorem packCommitLoop_skipped_sublist (accumulated : String)
    (fits : String → Bool) (ps : List PatchInfo) :
    ∀ block : String,
      (packCommitLoop accumulated fits block ps).skippedPatches.Sublist
        ps := by
  induction ps with
  | nil => intro block; simp [packCommitLoop]
  | cons p ps ih =>
    intro block
    by_cases hf : fits (accumulated ++ block ++ patchBlock p) = true
    · simpa [packCommitLoop, hf] using (ih (block ++ patchBlock p)).cons p
    · have hf' : fits (accumulated ++ block ++ patchBlock p) = false := by
        simpa using hf
      simpa [packCommitLoop, hf'] using (ih block).cons₂ p

/-- Unfolding `packCommitLoop` when the patch fits. -/
theorem packCommitLoop_cons_used (accumulated : String)
    (fits : String → Bool) (block : String) (p : PatchInfo)
    (ps : List PatchInfo)
    (hf : fits (accumulated ++ block ++ patchBlock p) = true) :
    packCommitLoop accumulated fits block (p :: ps) =
      ⟨(packCommitLoop accumulated fits (block ++ patchBlock p) ps).block,
        p :: (packCommitLoop accumulated fits (block ++ patchBlock p)
          ps).usedPatches,
        (packCommitLoop accumulated fits (block ++ patchBlock p)
          ps).skippedPatches⟩ := by
  simp [packCommitLoop, hf]

/-- Unfolding `packCommitLoop` when the patch does not fit. -/
theorem packCommitLoop_cons_skipped (accumulated : String)
    (fits : String → Bool) (block : String) (p : PatchInfo)
    (ps : List PatchInfo)
    (hf : fits (accumulated ++ block ++ patchBlock p) = false) :
    packCommitLoop accumulated fits block (p :: ps) =
      ⟨(packCommitLoop accumulated fits block ps).block,
        (packCommitLoop accumulated fits block ps).usedPatches,
        p :: (packCommitLoop accumulated fits block ps).skippedPatches⟩ := by
  simp [packCommitLoop, hf]

/-- `concatBlocks` on a cons cell. -/
theorem concatBlocks_cons (p : PatchInfo) (l : List PatchInfo) :
    concatBlocks (p :: l) = patchBlock p ++ concatBlocks l := rfl

/-- Used and skipped patches partition the input, multiplicity
included. -/
theorem packCommitLoop_count (accumulated : String) (fits : String → Bool)
    (ps : List PatchInfo) :
    ∀ (block : String) (q : PatchInfo),
      (packCommitLoop accumulated fits block ps).usedPatches.count q +
          (packCommitLoop accumulated fits block ps).skippedPatches.count q =
        ps.count q := by
  induction ps with
  | nil => intro block q; simp [packCommitLoop]
  | cons p ps ih =>
    intro block q
    by_cases hf : fits (accumulated ++ block ++ patchBlock p) = true
    · rw [packCommitLoop_cons_used accumulated fits block p ps hf]
      simp only [List.count_cons]
      have := ih (block ++ patchBlock p) q
      omega
    · have hf' : fits (accumulated ++ block ++ patchBlock p) = false := by
        simpa using hf
      rw [packCommitLoop_cons_skipped accumulated fits block p ps hf']
      simp only [List.count_cons]
      have := ih block q
      omega

/-- The returned block is the starting block followed by exactly the used
patch blocks, in order. -/
theorem packCommitLoop_block (accumulated : String) (fits : String → Bool)
    (ps : List PatchInfo) :
    ∀ block : String,
      (packCommitLoop accumulated fits block ps).block =
        block ++ concatBlocks
          (packCommitLoop accumulated fits block ps).usedPatches := by
  induction ps with
  | nil => intro block; simp [packCommitLoop, concatBlocks]
  | cons p ps ih =>
    intro block
    by_cases hf : fits (accumulated ++ block ++ patchBlock p) = true
    · rw [packCommitLoop_cons_used accumulated fits block p ps hf]
      show (packCommitLoop accumulated fits (block ++ patchBlock p)
          ps).block = _
      rw [ih (block ++ patchBlock p), concatBlocks_cons,
        String.append_assoc]
    · have hf' : fits (accumulated ++ block ++ patchBlock p) = false := by
        simpa using hf
      rw [packCommitLoop_cons_skipped accumulated fits block p ps hf']
      exact ih block

/-- C7: `packCommit` never reorders patches.  Its used and skipped lists
are order-preserving subsequences partitioning the commit's patch list;
the commit block is the commit header followed by exactly the used patch
blocks in input order; a patch is used iff the tokenizer check of the
accumulated text plus the block so far plus that patch's block succeeded
at the moment it was considered (the `PackSpec` relation), and a skipped
patch never stops the loop; `packCommit` reports failure exactly when no
patch was used. -/
theorem packCommit_faithful (accumulated : String) (fits : String → Bool)
    (commit : CommitDetails) :
    PackSpec accumulated fits (commitHeader commit) commit.patches
        (packCommitLoop accumulated fits (commitHeader commit)
          commit.patches).block
        (packCommitLoop accumulated fits (commitHeader commit)
          commit.patches).usedPatches
        (packCommitLoop accumulated fits (commitHeader commit)
          commit.patches).skippedPatches ∧
      (packCommitLoop accumulated fits (commitHeader commit)
        commit.patches).usedPatches.Sublist commit.patches ∧
      (packCommitLoop accumulated fits (commitHeader commit)
        commit.patches).skippedPatches.Sublist commit.patches ∧
      (∀ q : PatchInfo,
        (packCommitLoop accumulated fits (commitHeader commit)
            commit.patches).usedPatches.count q +
            (packCommitLoop accumulated fits (commitHeader commit)
              commit.patches).skippedPatches.count q =
          commit.patches.count q) ∧
      (packCommitLoop accumulated fits (commitHeader commit)
          commit.patches).block =
        commitHeader commit ++ concatBlocks
          (packCommitLoop accumulated fits (commitHeader commit)
            commit.patches).usedPatches ∧
      (packCommit accumulated fits commit = none ↔
        (packCommitLoop accumulated fits (commitHeader commit)
          commit.patches).usedPatches = []) := by
  refine ⟨packCommitLoop_spec accumulated fits commit.patches _,
    packCommitLoop_used_sublist accumulated fits commit.patches _,
    packCommitLoop_skipped_sublist accumulated fits commit.patches _,
    fun q => packCommitLoop_count accumulated fits commit.patches _ q,
    packCommitLoop_block accumulated fits commit.patches _, ?_⟩
  unfold packCommit
  by_cases hu : (packCommitLoop accumulated fits (commitHeader commit)
      commit.patches).usedPatches = []
  · simp [hu]
  · simp [hu, List.isEmpty_iff]

/-- C3 (amended): when a commit fits zero patches (`packCommit` reports
failure), that commit contributes nothing to the accumulated prompt, but
the packing loop of `buildPrompt` stops there (`break`): no later commit
is considered, and the prompt and packed-commit list stay as they were. -/
theorem buildPrompt_zero_fit_breaks (fits : String → Bool) (prompt : String)
    (c : CommitDetails) (rest : List CommitDetails)
    (h : packCommit prompt fits c = none) :
    buildPromptPack fits prompt (c :: rest) = (prompt, []) := by
  simp [buildPromptPack, h]

/-- Witness for `buildPrompt_zero_fit_breaks`: with a length-50 budget
the first commit's only patch does not fit, so packing stops with an
unchanged prompt. -/
theorem buildPrompt_zero_fit_breaks_witness :
    buildPromptPack (fun s => decide (s.length ≤ 50)) ""
        [⟨"a", "m", [⟨"f", "XXXXXXXX"⟩]⟩, ⟨"b", "m", [⟨"f", "Y"⟩]⟩] =
      ("", []) :=
  buildPrompt_zero_fit_breaks (fun s => decide (s.length ≤ 50)) ""
    ⟨"a", "m", [⟨"f", "XXXXXXXX"⟩]⟩ [⟨"b", "m", [⟨"f", "Y"⟩]⟩] (by decide)

/-- Counterexample to C3 as stated: under the length-50 tokenizer the
first commit fits zero patches and the second would fit on its own, yet
`buildPrompt` packs nothing at all — it breaks instead of proceeding to
the next commit. -/
theorem buildPrompt_zero_fit_cex :
    packCommit "" (fun s => decide (s.length ≤ 50))
        ⟨"a", "m", [⟨"f", "XXXXXXXX"⟩]⟩ = none ∧
      packCommit "" (fun s => decide (s.length ≤ 50))
        ⟨"b", "m", [⟨"f", "Y"⟩]⟩ ≠ none ∧
      buildPromptPack (fun s => decide (s.length ≤ 50)) ""
          [⟨"a", "m", [⟨"f", "XXXXXXXX"⟩]⟩, ⟨"b", "m", [⟨"f", "Y"⟩]⟩] =
        ("", []) := by
  refine ⟨by decide, by decide, by decide⟩

/-! ## Review poster routing theorems -/

/-- A comment already in the fallback list stays there through the rest
of the routing fold. -/
theorem routeFold_issue_mono (commits : List PackedCommit) (c : RComment)
    (cs : List RComment) :
    ∀ st : List Group × List RComment, c ∈ st.2 →
      c ∈ (cs.foldl (routeStep commits) st).2 := by
  induction cs with
  | nil => intro st h; exact h
  | cons c' cs ih =>
    intro st h
    rw [List.foldl_cons]
    refine ih (routeStep commits st c') ?_
    unfold routeStep
    cases commits.find? (fun d => d.commit.sha = c'.sha) with
    | none => exact List.mem_append_left _ h
    | some commit =>
      by_cases hv :
          verifyCommentLineInPatch c'.file c'.line c'.side commit.patches
      · simpa [hv] using h
      · simp only [hv, if_false]
        exact List.mem_append_left _ h

/-- Routing failure condition: the comment's commit is not packed, or its
line cannot be verified in the commit's patches. -/
def routeFails (commits : List PackedCommit) (c : RComment) : Prop :=
  match commits.find? (fun d => d.commit.sha = c.sha) with
  | none => True
  | some commit =>
    verifyCommentLineInPatch c.file c.line c.side commit.patches = false

/-- A comment in the input whose routing fails ends up in the fallback
list of the fold. -/
theorem routeFold_issue_mem (commits : List PackedCommit) (c : RComment)
    (hfail : routeFails commits c) (cs : List RComment) :
    ∀ st : List Group × List RComment, c ∈ cs →
      c ∈ (cs.foldl (routeStep commits) st).2 := by
  induction cs with
  | nil => intro st h; exact absurd h (List.not_mem_nil c)
  | cons c' cs ih =>
    intro st h
    rw [List.foldl_cons]
    rcases List.mem_cons.mp h with heq | hmem
    · subst heq
      refine routeFold_issue_mono commits c cs (routeStep commits st c) ?_
      unfold routeStep
      unfold routeFails at hfail
      cases hf : commits.find? (fun d => d.commit.sha = c.sha) with
      | none => exact List.mem_append_right _ (List.mem_singleton_self c)
      | some commit =>
        rw [hf] at hfail
        simp only [hfail, if_false]
        exact List.mem_append_right _ (List.mem_singleton_self c)
    · exact ih (routeStep commits st c') hmem

/-- C8: every comment whose target commit SHA is not among the packed
commits, or whose file has no patch in that commit, or whose `(line,
side)` the position mapper cannot map, is routed to a top-level issue
comment; its body is the fallback template, which contains the file name,
the line number, the side, and the original comment text.  The routing is
a total function — a NotFound mapper result is an ordinary value, never
an exception. -/
theorem unmappable_comment_fallback (comments : List RComment)
    (commits : List PackedCommit) (c : RComment) (hc : c ∈ comments)
    (hfail :
      commits.find? (fun d => d.commit.sha = c.sha) = none ∨
        ∃ pc, commits.find? (fun d => d.commit.sha = c.sha) = some pc ∧
          (pc.patches.find? (fun p => p.filename = c.file) = none ∨
            ∃ tgt, pc.patches.find? (fun p => p.filename = c.file) =
                some tgt ∧
              findPositionInDiff tgt.patch c.line c.side = none)) :
    c ∈ (postReviewComments comments commits).issueComments ∧
      mkIssueBody c ∈ (postReviewComments comments commits).issueBodies ∧
      (∃ s1 s2, mkIssueBody c = s1 ++ c.file ++ s2) ∧
      (∃ s1 s2, mkIssueBody c = s1 ++ toString c.line ++ s2) ∧
      (∃ s1 s2, mkIssueBody c =
        s1 ++ (match c.side with
          | Side.LEFT => "LEFT" | Side.RIGHT => "RIGHT") ++ s2) ∧
      (∃ s1 s2, mkIssueBody c = s1 ++ c.comment ++ s2) := by
  have hfail' : routeFails commits c := by
    unfold routeFails
    rcases hfail with hnone | ⟨pc, hpc, hinner⟩
    · rw [hnone]; trivial
    · rw [hpc]
      show verifyCommentLineInPatch c.file c.line c.side pc.patches = false
      unfold verifyCommentLineInPatch
      rcases hinner with hpnone | ⟨tgt, htgt, hposn⟩
      · rw [hpnone]
      · rw [htgt]
        show (findPositionInDiff tgt.patch c.line c.side).isSome = false
        rw [hposn]
        rfl
  have hmem : c ∈ (postReviewComments comments commits).issueComments :=
    routeFold_issue_mem commits c hfail' comments ([], []) hc
  refine ⟨hmem, List.mem_map_of_mem mkIssueBody hmem, ?_, ?_, ?_, ?_⟩
  · exact ⟨"Comment on line " ++ toString c.line ++ " (" ++
      (match c.side with | Side.LEFT => "LEFT" | Side.RIGHT => "RIGHT") ++
      ") of file ", ": " ++ c.comment,
      by simp [mkIssueBody, String.append_assoc]⟩
  · exact ⟨"Comment on line ", " (" ++
      (match c.side with | Side.LEFT => "LEFT" | Side.RIGHT => "RIGHT") ++
      ") of file " ++ c.file ++ ": " ++ c.comment,
      by simp [mkIssueBody, String.append_assoc]⟩
  · exact ⟨"Comment on line " ++ toString c.line ++ " (",
      ") of file " ++ c.file ++ ": " ++ c.comment,
      by simp [mkIssueBody, String.append_assoc]⟩
  · exact ⟨"Comment on line " ++ toString c.line ++ " (" ++
      (match c.side with | Side.LEFT => "LEFT" | Side.RIGHT => "RIGHT") ++
      ") of file " ++ c.file ++ ": ", "",
      by simp [mkIssueBody, String.append_assoc, String.append_empty]⟩

/-- Witness for `unmappable_comment_fallback`: a comment whose SHA is not
among the (empty) packed commits lands in the fallback list with the
expected body. -/
theorem unmappable_comment_fallback_witness :
    (⟨"s", "f", 1, Side.RIGHT, "text", Severity.info⟩ : RComment) ∈
        (postReviewComments
          [⟨"s", "f", 1, Side.RIGHT, "text", Severity.info⟩]
          []).issueComments ∧
      mkIssueBody ⟨"s", "f", 1, Side.RIGHT, "text", Severity.info⟩ ∈
        (postReviewComments
          [⟨"s", "f", 1, Side.RIGHT, "text", Severity.info⟩]
          []).issueBodies :=
  ⟨(unmappable_comment_fallback
      [⟨"s", "f", 1, Side.RIGHT, "text", Severity.info⟩] []
      ⟨"s", "f", 1, Side.RIGHT, "text", Severity.info⟩ (by decide)
      (Or.inl (by decide))).1,
    (unmappable_comment_fallback
      [⟨"s", "f", 1, Side.RIGHT, "text", Severity.info⟩] []
      ⟨"s", "f", 1, Side.RIGHT, "text", Severity.info⟩ (by decide)
      (Or.inl (by decide))).2.1⟩

/-- C9: in every comment group produced by `postReviewComments`, a
comment is in the group's REQUEST_CHANGES part iff its severity index in
the explicit ordered list `["info", "warning", "error"]` meets or exceeds
the threshold's index (inclusive comparison), and in the COMMENT part —
built in the source as `!groupChanges.includes(c)` — iff its index is
strictly below the threshold's. -/
theorem severity_threshold_partition (comments : List RComment)
    (commits : List PackedCommit) (changesThreshold : Severity) (g : Group)
    (hg : g ∈ (postReviewComments comments commits).groups) (c : RComment) :
    (c ∈ groupChanges changesThreshold g ↔
        c ∈ g.comments ∧
          severityOrder.indexOf (severityString changesThreshold) ≤
            severityOrder.indexOf (severityString c.severity)) ∧
      (c ∈ groupCommentsOnly changesThreshold g ↔
        c ∈ g.comments ∧
          severityOrder.indexOf (severityString c.severity) <
            severityOrder.indexOf (severityString changesThreshold)) := by
  have hchanges : c ∈ groupChanges changesThreshold g ↔
      c ∈ g.comments ∧
        severityOrder.indexOf (severityString changesThreshold) ≤
          severityOrder.indexOf (severityString c.severity) := by
    simp [groupChanges, List.mem_filter]
  refine ⟨hchanges, ?_⟩
  have hsimp : ∀ (x : RComment) (L : List RComment),
      ((!(L.contains x)) = true) ↔ ¬ x ∈ L := by
    intro x L; simp
  unfold groupCommentsOnly
  rw [List.mem_filter]
  constructor
  · rintro ⟨hmem, hnc⟩
    refine ⟨hmem, ?_⟩
    have hnc' := (hsimp c _).mp hnc
    have hn : ¬(severityOrder.indexOf (severityString changesThreshold) ≤
        severityOrder.indexOf (severityString c.severity)) :=
      fun hle => hnc' (hchanges.mpr ⟨hmem, hle⟩)
    omega
  · rintro ⟨hmem, hlt⟩
    refine ⟨hmem, (hsimp c _).mpr ?_⟩
    intro hin
    have := (hchanges.mp hin).2
    omega

/-- Witness for `severity_threshold_partition`: with threshold `warning`,
an `error` comment in the single produced group is in its REQUEST_CHANGES
part and not in its COMMENT part. -/
theorem severity_threshold_partition_witness :
    (⟨"s", "f", 1, Side.RIGHT, "t", Severity.error⟩ : RComment) ∈
        groupChanges Severity.warning
          ⟨"s",
            ⟨⟨"s", "m",
              [⟨"f", "@@ -1,2 +1,2 @@\n-removed\n some\n+added"⟩]⟩,
              [⟨"f", "@@ -1,2 +1,2 @@\n-removed\n some\n+added"⟩]⟩,
            [⟨"s", "f", 1, Side.RIGHT, "t", Severity.error⟩]⟩ ∧
      (⟨"s", "f", 1, Side.RIGHT, "t", Severity.error⟩ : RComment) ∉
        groupCommentsOnly Severity.warning
          ⟨"s",
            ⟨⟨"s", "m",
              [⟨"f", "@@ -1,2 +1,2 @@\n-removed\n some\n+added"⟩]⟩,
              [⟨"f", "@@ -1,2 +1,2 @@\n-removed\n some\n+added"⟩]⟩,
            [⟨"s", "f", 1, Side.RIGHT, "t", Severity.error⟩]⟩ :=
  ⟨((severity_threshold_partition
      [⟨"s", "f", 1, Side.RIGHT, "t", Severity.error⟩]
      [⟨⟨"s", "m", [⟨"f", "@@ -1,2 +1,2 @@\n-removed\n some\n+added"⟩]⟩,
        [⟨"f", "@@ -1,2 +1,2 @@\n-removed\n some\n+added"⟩]⟩]
      Severity.warning _ (by decide)
      ⟨"s", "f", 1, Side.RIGHT, "t", Severity.error⟩).1).mpr
      ⟨by decide, by decide⟩,
    fun hmem =>
      absurd ((severity_threshold_partition
        [⟨"s", "f", 1, Side.RIGHT, "t", Severity.error⟩]
        [⟨⟨"s", "m", [⟨"f", "@@ -1,2 +1,2 @@\n-removed\n some\n+added"⟩]⟩,
          [⟨"f", "@@ -1,2 +1,2 @@\n-removed\n some\n+added"⟩]⟩]
        Severity.warning _ (by decide)
        ⟨"s", "f", 1, Side.RIGHT, "t", Severity.error⟩).2.mp hmem).2
        (by decide)⟩

end Reviewer
